import Mathlib

/-!
Shallow embedding of the recovery memory-mapping engine (SysUtil.cpp):
`getFileStartAndLength`, `sysMapFD`, `sysMapBlockFile`, `sysMapFile`,
`sysReleaseMap`.

OS nondeterminism (lseek, mmap, malloc/calloc, open results and the bytes
delivered by fgets/fscanf) is passed in explicitly through environment
structures.  Machine integers (`size_t`) are modelled as `Nat` with explicit
`% 2^64` where the C code can wrap.  Each operation additionally returns a
trace of the resource-affecting calls it performed (successful mmap/open
acquisitions, every MAP_FIXED mmap call issued, and the munmap/close/free
cleanup calls), so that unwind and leak properties are statable.
-/

/-- `SIZE_MAX` for the 64-bit `size_t` model. -/
def SIZE_MAX : Nat := 2 ^ 64 - 1

/-- Wrapping `size_t` subtraction `a - b` (two's complement, 64-bit). -/
def usub (a b : Nat) : Nat := (2 ^ 64 + a % 2 ^ 64 - b % 2 ^ 64) % 2 ^ 64

/-- Wrapping `size_t` multiplication. -/
def mul64 (a b : Nat) : Nat := a * b % 2 ^ 64

/-- One `MappedRange` of SysUtil.h: `{ addr, length }`. -/
structure MappedRange where
  addr : Nat
  length : Nat
deriving DecidableEq, Repr

/-- The state of the `ranges` pointer inside a `MemMapping`: the C pointer is
either NULL, a live heap array, or a dangling pointer to an array that has
already been passed to `free`. -/
inductive RangesPtr where
  | null : RangesPtr
  | live (rs : List MappedRange) : RangesPtr
  | freed (rs : List MappedRange) : RangesPtr
deriving DecidableEq, Repr

/-- The `MemMapping` handle: `addr` (base), `length` (logical length),
`range_count` and the `ranges` array pointer. -/
structure MemMapping where
  addr : Nat
  length : Nat
  range_count : Nat
  ranges : RangesPtr
deriving DecidableEq, Repr

/-- `memset(pMap, 0, sizeof(*pMap))`: the zeroed, never-populated handle. -/
def emptyMap : MemMapping := ⟨0, 0, 0, .null⟩

/-- Trace events for the resource-affecting calls the engine performs.
`mmapFileEv`/`reserveEv`/`openEv`/`fopenEv` record successful acquisitions;
`fixedEv i a l` records every MAP_FIXED mmap call issued for extent `i`
(at address `a`, length `l`), whether or not it succeeds; `munmapEv`,
`closeEv`, `fcloseEv`, `freeEv` record cleanup calls.  `free(NULL)` is a
defined no-op in C and is not recorded. -/
inductive Ev where
  | mmapFileEv (addr len : Nat) : Ev
  | reserveEv (addr len : Nat) : Ev
  | fixedEv (i addr len : Nat) : Ev
  | munmapEv (addr len : Nat) : Ev
  | openEv (fd : Nat) : Ev
  | closeEv (fd : Nat) : Ev
  | fopenEv : Ev
  | fcloseEv : Ev
  | freeEv : Ev
deriving DecidableEq, Repr

/-- Result of a mapping call: the C return value (success flag), the final
state of the handle argument, and the trace of calls performed. -/
structure MapRes where
  ok : Bool
  map : MemMapping
  tr : List Ev
deriving DecidableEq, Repr

/-- Environment for `sysMapFD` and its `getFileStartAndLength` helper:
the results of the three lseek64 calls (`none` models a -1 return), the
result of the file-backed mmap and of the one-element malloc. -/
structure FDEnv where
  curPos : Option Nat
  endPos : Option Nat
  seekBackOk : Bool
  mmapAddr : Option Nat
  mallocOk : Bool
deriving DecidableEq, Repr

/-- `getFileStartAndLength(fd, &start, &length)`: seeks to find the current
position and the end of file, restores the position, and fails (returns -1,
here `none`) if any seek failed or if `length == 0` ("file is empty").
`length` is the `size_t` value of the `loff_t` difference `end - start`. -/
def getFileStartAndLength (e : FDEnv) : Option (Nat × Nat) :=
  match e.curPos, e.endPos with
  | some start, some endPos =>
    if e.seekBackOk then
      let length := usub endPos start
      if length = 0 then none else some (start, length)
    else none
  | _, _ => none

/-- `sysMapFD(fd, pMap)`, a C++ `bool` function.  NOTE: on
`getFileStartAndLength` failure the source executes `return -1;`; C++
converts the nonzero int -1 to the `bool` value `true`, so that branch
reports success while leaving `pMap` untouched.  The other failure branches
return `false`.  On the success path it mmaps the file, fills
`addr`/`length`/`range_count`, then mallocs the one-element range array;
if malloc fails it munmaps and returns `false` with `ranges` left NULL. -/
def sysMapFD (e : FDEnv) (pMap : MemMapping) : MapRes :=
  match getFileStartAndLength e with
  | none => ⟨true, pMap, []⟩
  | some (_start, length) =>
    match e.mmapAddr with
    | none => ⟨false, pMap, []⟩
    | some memPtr =>
      let m := { pMap with addr := memPtr, length := length, range_count := 1 }
      if e.mallocOk then
        ⟨true, { m with ranges := .live [⟨memPtr, length⟩] }, [.mmapFileEv memPtr length]⟩
      else
        ⟨false, { m with ranges := .null }, [.mmapFileEv memPtr length, .munmapEv memPtr length]⟩

/-- The content delivered by the block-map descriptor stream `mapf`:
whether the fgets of the device line succeeded, whether the fscanf of the
header matched all three fields, the scanned `size` (`%zu`), `blksize` and
`range_count` (`%u`), and the list of extent lines that scan successfully
(`fscanf` of extent `i` succeeds iff `i < extents.length`). -/
structure BlockMapf where
  devLineOk : Bool
  headerOk : Bool
  size : Nat
  blksize : Nat
  range_count : Nat
  extents : List (Nat × Nat)
deriving DecidableEq, Repr

/-- Environment for `sysMapBlockFile`: the reservation mmap result, the
calloc result, the `open(block_dev)` result, and for each extent index
whether its MAP_FIXED mmap call succeeds (on success MAP_FIXED returns the
requested address). -/
structure BMEnv where
  reserveAddr : Option Nat
  callocOk : Bool
  devFd : Option Nat
  fixedOk : Nat → Bool

/-- `blocks = ((size-1) / blksize) + 1`, computed by the source only under
`blksize != 0`; when `blksize = 0` the C variable stays uninitialized but is
never read, because the validation disjunction short-circuits on
`blksize == 0` first (this definition's value at `blksize = 0` is therefore
irrelevant). -/
def bmBlocks (f : BlockMapf) : Nat := usub f.size 1 / f.blksize + 1

/-- The calloc'd range array as seen from outside: the prefix written by the
extent loop followed by the remaining zero-initialized entries. -/
def arrFill (ws : List MappedRange) (n : Nat) : List MappedRange :=
  ws ++ List.replicate (n - ws.length) ⟨0, 0⟩

/-- Result of the extent loop of `sysMapBlockFile`: the `success` flag, the
`MappedRange` entries written, the final `remaining_size`, and the trace of
MAP_FIXED calls issued. -/
structure LoopRes where
  ok : Bool
  rs : List MappedRange
  rem : Nat
  tr : List Ev
deriving DecidableEq, Repr

/-- The `for (i = 0; i < range_count; ++i)` extent loop of
`sysMapBlockFile`, iterating `count` more times starting at extent index
`i`, cursor `next` and `remaining` bytes of the reservation.  Each step:
fscanf the next extent (fails if the stream is exhausted), compute
`length = (end - start) * blksize`, validate
`end > start`, `(end - start) <= SIZE_MAX / blksize`,
`length <= remaining_size`, then issue the MAP_FIXED mmap at `next`;
on success record the range and advance, on any failure stop. -/
def bmLoop (exts : List (Nat × Nat)) (blksize : Nat) (fok : Nat → Bool) :
    Nat → Nat → Nat → Nat → LoopRes
  | 0, _, _, remaining => ⟨true, [], remaining, []⟩
  | count + 1, i, next, remaining =>
    match exts[i]? with
    | none => ⟨false, [], remaining, []⟩
    | some (s, e) =>
      let length := mul64 (usub e s) blksize
      if e ≤ s ∨ usub e s > SIZE_MAX / blksize ∨ length > remaining then
        ⟨false, [], remaining, []⟩
      else if fok i then
        let r := bmLoop exts blksize fok count (i + 1) (next + length) (remaining - length)
        ⟨r.ok, ⟨next, length⟩ :: r.rs, r.rem, .fixedEv i next length :: r.tr⟩
      else
        ⟨false, [], remaining, [.fixedEv i next length]⟩

/-- `sysMapBlockFile(mapf, pMap)`: read the device line and the header,
validate `size`, `blksize`, overflow of `blocks * blksize` and
`range_count`, set `pMap->range_count`, calloc the range array, reserve
`blocks * blksize` bytes of address space, open the block device, run the
extent loop, require `remaining_size == 0`, and on any failure after the
reservation unmap the whole reserved span in one call, close the device fd
and free the range array (leaving `pMap->ranges` dangling). -/
def sysMapBlockFile (f : BlockMapf) (env : BMEnv) (pMap : MemMapping) : MapRes :=
  if f.devLineOk = false then ⟨false, pMap, []⟩
  else if f.headerOk = false then ⟨false, pMap, []⟩
  else if f.size = 0 ∨ f.blksize = 0 ∨ bmBlocks f > SIZE_MAX / f.blksize ∨ f.range_count = 0 then
    ⟨false, pMap, []⟩
  else
    let pm := { pMap with range_count := f.range_count }
    if env.callocOk = false then ⟨false, { pm with ranges := .null }, []⟩
    else
      let total := mul64 (bmBlocks f) f.blksize
      match env.reserveAddr with
      | none => ⟨false, { pm with ranges := .freed (arrFill [] f.range_count) }, [.freeEv]⟩
      | some rv =>
        match env.devFd with
        | none =>
          ⟨false, { pm with ranges := .freed (arrFill [] f.range_count) },
            [.reserveEv rv total, .munmapEv rv total, .freeEv]⟩
        | some fd =>
          let L := bmLoop f.extents f.blksize env.fixedOk f.range_count 0 rv total
          if L.ok = true ∧ L.rem = 0 then
            ⟨true,
              { pm with addr := rv, length := f.size, ranges := .live (arrFill L.rs f.range_count) },
              [.reserveEv rv total, .openEv fd] ++ L.tr ++ [.closeEv fd]⟩
          else
            ⟨false, { pm with ranges := .freed (arrFill L.rs f.range_count) },
              [.reserveEv rv total, .openEv fd] ++ L.tr
                ++ [.closeEv fd, .munmapEv rv total, .freeEv]⟩

/-- `fn && fn[0] == '@'`: the sentinel test of `sysMapFile` (the path is
modelled as its character list). -/
def isBlockPath (fn : List Char) : Bool :=
  match fn with
  | c :: _ => c == '@'
  | [] => false

/-- Environment for `sysMapFile`: the result of `fopen(fn+1, "r")` on the
block-map branch (`some f` delivers the stream content `f`), the block-map
environment, the result of `open(fn, O_RDONLY)` on the regular branch, and
the `sysMapFD` environment. -/
structure FileEnv where
  fopenRes : Option BlockMapf
  bmEnv : BMEnv
  openFd : Option Nat
  fdEnv : FDEnv

/-- `sysMapFile(fn, pMap)`: zero the handle, dispatch on the `'@'` sentinel;
the block branch fopens the descriptor file, runs `sysMapBlockFile` and
fcloses on both exits; the regular branch opens the file read-only, runs
`sysMapFD` and closes on both exits (the int result 0 or -1 is modelled as
the `ok` flag). -/
def sysMapFile (fn : List Char) (env : FileEnv) : MapRes :=
  let pMap := emptyMap
  if isBlockPath fn then
    match env.fopenRes with
    | none => ⟨false, pMap, []⟩
    | some f =>
      let r := sysMapBlockFile f env.bmEnv pMap
      ⟨r.ok, r.map, .fopenEv :: r.tr ++ [.fcloseEv]⟩
  else
    match env.openFd with
    | none => ⟨false, pMap, []⟩
    | some fd =>
      let r := sysMapFD env.fdEnv pMap
      ⟨r.ok, r.map, .openEv fd :: r.tr ++ [.closeEv fd]⟩

/-- Outcome of `sysReleaseMap`: either it returns normally with the final
handle state and the munmap/free calls performed, or it hits undefined
behaviour (dereference of a NULL `ranges` pointer, out-of-bounds read, or
use of an already-freed array). -/
inductive RelOut where
  | ok (m : MemMapping) (tr : List Ev) : RelOut
  | fault : RelOut
deriving DecidableEq, Repr

/-- `sysReleaseMap(pMap)`: munmap each of the first `range_count` entries of
`ranges` (errors are only logged), then `free(pMap->ranges)`, set `ranges`
to NULL and `range_count` to 0.  With `range_count = 0` and a NULL pointer
this is a defined no-op (`free(NULL)` does nothing); with a nonzero count on
a NULL pointer it dereferences NULL, and any use of an already-freed array
is undefined behaviour, both modelled as `fault`. -/
def sysReleaseMap (pMap : MemMapping) : RelOut :=
  match pMap.ranges with
  | .null =>
    if pMap.range_count = 0 then
      .ok ⟨pMap.addr, pMap.length, 0, .null⟩ []
    else .fault
  | .freed _ => .fault
  | .live rs =>
    if pMap.range_count ≤ rs.length then
      .ok ⟨pMap.addr, pMap.length, 0, .null⟩
        ((rs.take pMap.range_count).map (fun r => Ev.munmapEv r.addr r.length) ++ [.freeEv])
    else .fault

/-- Sum of the lengths of a list of ranges. -/
def sumLen (rs : List MappedRange) : Nat := rs.foldr (fun r a => r.length + a) 0

/-- The ranges sit back-to-back starting at address `a`. -/
def consecutive : Nat → List MappedRange → Prop
  | _, [] => True
  | a, r :: rs => r.addr = a ∧ consecutive (a + r.length) rs

/-- Number of events in a trace matching a predicate. -/
def countEv (p : Ev → Bool) (tr : List Ev) : Nat := (tr.filter p).length

def isOpenEv (fd : Nat) : Ev → Bool
  | .openEv f => f == fd
  | _ => false

def isCloseEv (fd : Nat) : Ev → Bool
  | .closeEv f => f == fd
  | _ => false

def isFopenEv : Ev → Bool
  | .fopenEv => true
  | _ => false

def isFcloseEv : Ev → Bool
  | .fcloseEv => true
  | _ => false

def isFixedEv : Ev → Bool
  | .fixedEv _ _ _ => true
  | _ => false

/-- Every descriptor opened by the trace is also closed by it: `open` and
`close` counts agree for every fd, and `fopen`/`fclose` counts agree. -/
def balanced (tr : List Ev) : Prop :=
  countEv isFopenEv tr = countEv isFcloseEv tr ∧
  ∀ fd, countEv (isOpenEv fd) tr = countEv (isCloseEv fd) tr

/-! ### Lemmas about the extent loop -/

theorem arrFill_self (ws : List MappedRange) (n : Nat) (h : ws.length = n) :
    arrFill ws n = ws := by
  simp [arrFill, h]

theorem bmLoop_ok_length (exts : List (Nat × Nat)) (blksize : Nat) (fok : Nat → Bool) :
    ∀ (count i next remaining : Nat) (L : LoopRes),
      bmLoop exts blksize fok count i next remaining = L → L.ok = true →
      L.rs.length = count := by
  intro count
  induction count with
  | zero =>
    intro i next remaining L hEq _
    subst hEq
    rfl
  | succ n ih =>
    intro i next remaining L hEq hok
    simp only [bmLoop] at hEq
    split at hEq
    · subst hEq
      simp at hok
    · split at hEq
      · subst hEq
        simp at hok
      · split at hEq
        · subst hEq
          simp only at hok
          have := ih _ _ _ _ rfl hok
          simp [this]
        · subst hEq
          simp at hok

theorem bmLoop_sum (exts : List (Nat × Nat)) (blksize : Nat) (fok : Nat → Bool) :
    ∀ (count i next remaining : Nat) (L : LoopRes),
      bmLoop exts blksize fok count i next remaining = L →
      sumLen L.rs + L.rem = remaining := by
  intro count
  induction count with
  | zero =>
    intro i next remaining L hEq
    subst hEq
    simp [bmLoop, sumLen]
  | succ n ih =>
    intro i next remaining L hEq
    simp only [bmLoop] at hEq
    split at hEq
    · subst hEq
      simp [sumLen]
    · rename_i s e heq
      split at hEq
      · subst hEq
        simp [sumLen]
      · rename_i hval
        split at hEq
        · subst hEq
          have hrec := ih (i + 1) (next + mul64 (usub e s) blksize)
            (remaining - mul64 (usub e s) blksize)
            (bmLoop exts blksize fok n (i + 1) (next + mul64 (usub e s) blksize)
              (remaining - mul64 (usub e s) blksize)) rfl
          have hle : mul64 (usub e s) blksize ≤ remaining := by
            by_contra hlt
            exact hval (Or.inr (Or.inr (Nat.lt_of_not_le hlt)))
          simp only [sumLen, List.foldr] at hrec ⊢
          omega
        · subst hEq
          simp [sumLen]

theorem bmLoop_chain (exts : List (Nat × Nat)) (blksize : Nat) (fok : Nat → Bool) :
    ∀ (count i next remaining : Nat) (L : LoopRes),
      bmLoop exts blksize fok count i next remaining = L →
      consecutive next L.rs := by
  intro count
  induction count with
  | zero =>
    intro i next remaining L hEq
    subst hEq
    trivial
  | succ n ih =>
    intro i next remaining L hEq
    simp only [bmLoop] at hEq
    split at hEq
    · subst hEq
      trivial
    · split at hEq
      · subst hEq
        trivial
      · split at hEq
        · subst hEq
          exact ⟨rfl, ih _ _ _ _ rfl⟩
        · subst hEq
          trivial

theorem bmLoop_tr_fixed (exts : List (Nat × Nat)) (blksize : Nat) (fok : Nat → Bool) :
    ∀ (count i next remaining : Nat) (L : LoopRes),
      bmLoop exts blksize fok count i next remaining = L →
      ∀ ev ∈ L.tr, isFixedEv ev = true := by
  intro count
  induction count with
  | zero =>
    intro i next remaining L hEq
    subst hEq
    simp [bmLoop]
  | succ n ih =>
    intro i next remaining L hEq
    simp only [bmLoop] at hEq
    split at hEq
    · subst hEq
      simp
    · split at hEq
      · subst hEq
        simp
      · split at hEq
        · subst hEq
          intro ev hev
          rcases List.mem_cons.mp hev with h | h
          · subst h
            rfl
          · exact ih _ _ _ _ rfl ev h
        · subst hEq
          intro ev hev
          rcases List.mem_cons.mp hev with h | h
          · subst h
            rfl
          · simp at h

theorem bmLoop_span (exts : List (Nat × Nat)) (blksize : Nat) (fok : Nat → Bool) :
    ∀ (count i next remaining : Nat) (L : LoopRes),
      bmLoop exts blksize fok count i next remaining = L →
      ∀ j a l, Ev.fixedEv j a l ∈ L.tr → next ≤ a ∧ a + l ≤ next + remaining := by
  intro count
  induction count with
  | zero =>
    intro i next remaining L hEq
    subst hEq
    simp [bmLoop]
  | succ n ih =>
    intro i next remaining L hEq
    simp only [bmLoop] at hEq
    split at hEq
    · subst hEq
      simp
    · rename_i s e heq
      split at hEq
      · subst hEq
        simp
      · rename_i hval
        have hle : mul64 (usub e s) blksize ≤ remaining := by
          by_contra hlt
          exact hval (Or.inr (Or.inr (Nat.lt_of_not_le hlt)))
        split at hEq
        · subst hEq
          intro j a l hmem
          rcases List.mem_cons.mp hmem with h | h
          · cases h
            omega
          · have := ih (i + 1) (next + mul64 (usub e s) blksize)
              (remaining - mul64 (usub e s) blksize)
              (bmLoop exts blksize fok n (i + 1) (next + mul64 (usub e s) blksize)
                (remaining - mul64 (usub e s) blksize)) rfl j a l h
            omega
        · subst hEq
          intro j a l hmem
          rcases List.mem_cons.mp hmem with h | h
          · cases h
            omega
          · simp at h

theorem bmLoop_get (exts : List (Nat × Nat)) (blksize : Nat) (fok : Nat → Bool) :
    ∀ (count i next remaining : Nat) (L : LoopRes),
      bmLoop exts blksize fok count i next remaining = L →
      ∀ k, k < L.rs.length →
        ∃ s e a, exts[i + k]? = some (s, e) ∧ s < e ∧ usub e s ≤ SIZE_MAX / blksize ∧
          L.rs[k]? = some ⟨a, mul64 (usub e s) blksize⟩ := by
  intro count
  induction count with
  | zero =>
    intro i next remaining L hEq
    subst hEq
    simp [bmLoop]
  | succ n ih =>
    intro i next remaining L hEq
    simp only [bmLoop] at hEq
    split at hEq
    · subst hEq
      simp
    · rename_i s e heq
      split at hEq
      · subst hEq
        simp
      · rename_i hval
        split at hEq
        · subst hEq
          intro k hk
          match k with
          | 0 =>
            refine ⟨s, e, next, ?_, ?_, ?_, by simp⟩
            · simpa using heq
            · exact Nat.lt_of_not_le (fun h => hval (Or.inl h))
            · by_contra h
              exact hval (Or.inr (Or.inl (Nat.lt_of_not_le h)))
          | k' + 1 =>
            simp only [List.length_cons, Nat.add_lt_add_iff_right] at hk
            obtain ⟨s', e', a', h1, h2, h3, h4⟩ := ih (i + 1)
              (next + mul64 (usub e s) blksize) (remaining - mul64 (usub e s) blksize)
              (bmLoop exts blksize fok n (i + 1) (next + mul64 (usub e s) blksize)
                (remaining - mul64 (usub e s) blksize)) rfl k' hk
            refine ⟨s', e', a', ?_, h2, h3, ?_⟩
            · have harith : i + 1 + k' = i + (k' + 1) := by omega
              rw [harith] at h1
              exact h1
            · simpa using h4
        · subst hEq
          simp

theorem bmLoop_fail_noFixedFrom (exts : List (Nat × Nat)) (blksize : Nat) (fok : Nat → Bool) :
    ∀ (count i next remaining : Nat) (L : LoopRes) (s e : Nat),
      bmLoop exts blksize fok count i next remaining = L →
      exts[i + L.rs.length]? = some (s, e) →
      (e ≤ s ∨ usub e s > SIZE_MAX / blksize ∨ mul64 (usub e s) blksize > L.rem) →
      ∀ j a l, Ev.fixedEv j a l ∈ L.tr → j < i + L.rs.length := by
  intro count
  induction count with
  | zero =>
    intro i next remaining L s e hEq _ _
    subst hEq
    simp [bmLoop]
  | succ n ih =>
    intro i next remaining L s e hEq hext hbad
    simp only [bmLoop] at hEq
    split at hEq
    · subst hEq
      simp
    · rename_i s0 e0 heq
      split at hEq
      · subst hEq
        simp
      · rename_i hval
        split at hEq
        · subst hEq
          intro j a l hmem
          simp only [List.length_cons] at hext ⊢
          rcases List.mem_cons.mp hmem with h | h
          · cases h
            omega
          · have harith : i +
                ((bmLoop exts blksize fok n (i + 1) (next + mul64 (usub e0 s0) blksize)
                  (remaining - mul64 (usub e0 s0) blksize)).rs.length + 1) =
                i + 1 +
                (bmLoop exts blksize fok n (i + 1) (next + mul64 (usub e0 s0) blksize)
                  (remaining - mul64 (usub e0 s0) blksize)).rs.length := by
              omega
            rw [harith] at hext
            have := ih (i + 1) (next + mul64 (usub e0 s0) blksize)
              (remaining - mul64 (usub e0 s0) blksize)
              (bmLoop exts blksize fok n (i + 1) (next + mul64 (usub e0 s0) blksize)
                (remaining - mul64 (usub e0 s0) blksize)) s e rfl hext hbad j a l h
            omega
        · subst hEq
          simp only [List.length_nil, Nat.add_zero] at hext
          rw [heq] at hext
          cases hext
          exact absurd hbad hval

/-! ### Shape lemmas for the mapping operations -/

theorem bm_ok_inv (f : BlockMapf) (env : BMEnv) (pMap : MemMapping) (m : MemMapping)
    (tr : List Ev) (h : sysMapBlockFile f env pMap = ⟨true, m, tr⟩) :
    ∃ rv fd,
      f.devLineOk = true ∧ f.headerOk = true ∧
      f.size ≠ 0 ∧ f.blksize ≠ 0 ∧ bmBlocks f ≤ SIZE_MAX / f.blksize ∧ f.range_count ≠ 0 ∧
      env.callocOk = true ∧ env.reserveAddr = some rv ∧ env.devFd = some fd ∧
      (bmLoop f.extents f.blksize env.fixedOk f.range_count 0 rv
        (mul64 (bmBlocks f) f.blksize)).ok = true ∧
      (bmLoop f.extents f.blksize env.fixedOk f.range_count 0 rv
        (mul64 (bmBlocks f) f.blksize)).rem = 0 ∧
      m = { pMap with
            addr := rv
            length := f.size
            range_count := f.range_count
            ranges := .live (arrFill (bmLoop f.extents f.blksize env.fixedOk f.range_count 0 rv
              (mul64 (bmBlocks f) f.blksize)).rs f.range_count) } ∧
      tr = [.reserveEv rv (mul64 (bmBlocks f) f.blksize), .openEv fd] ++
        (bmLoop f.extents f.blksize env.fixedOk f.range_count 0 rv
          (mul64 (bmBlocks f) f.blksize)).tr ++ [.closeEv fd] := by
  simp only [sysMapBlockFile] at h
  split at h
  · exact absurd (congrArg MapRes.ok h) (by simp)
  · split at h
    · exact absurd (congrArg MapRes.ok h) (by simp)
    · rename_i hdev hhdr
      split at h
      · exact absurd (congrArg MapRes.ok h) (by simp)
      · rename_i hvalid
        split at h
        · exact absurd (congrArg MapRes.ok h) (by simp)
        · rename_i hcal
          split at h
          · exact absurd (congrArg MapRes.ok h) (by simp)
          · rename_i rv hrv
            split at h
            · exact absurd (congrArg MapRes.ok h) (by simp)
            · rename_i fd hfd
              split at h
              · rename_i hLok
                injection h with h1 h2 h3
                refine ⟨rv, fd, ?_, ?_, ?_, ?_, ?_, ?_, ?_, hrv, hfd,
                  hLok.1, hLok.2, h2.symm, h3.symm⟩
                · exact Bool.of_not_eq_false hdev
                · exact Bool.of_not_eq_false hhdr
                · intro hc
                  exact hvalid (Or.inl hc)
                · intro hc
                  exact hvalid (Or.inr (Or.inl hc))
                · by_contra hc
                  exact hvalid (Or.inr (Or.inr (Or.inl (Nat.lt_of_not_le hc))))
                · intro hc
                  exact hvalid (Or.inr (Or.inr (Or.inr hc)))
                · exact Bool.of_not_eq_false hcal
              · exact absurd (congrArg MapRes.ok h) (by simp)

theorem bm_fail_shape (f : BlockMapf) (env : BMEnv) (pMap : MemMapping) (rv fd : Nat)
    (hdev : f.devLineOk = true) (hhdr : f.headerOk = true)
    (hvalid : ¬(f.size = 0 ∨ f.blksize = 0 ∨ bmBlocks f > SIZE_MAX / f.blksize ∨
      f.range_count = 0))
    (hcal : env.callocOk = true) (hrv : env.reserveAddr = some rv)
    (hfd : env.devFd = some fd)
    (hfail : (bmLoop f.extents f.blksize env.fixedOk f.range_count 0 rv
        (mul64 (bmBlocks f) f.blksize)).ok = false ∨
      (bmLoop f.extents f.blksize env.fixedOk f.range_count 0 rv
        (mul64 (bmBlocks f) f.blksize)).rem ≠ 0) :
    sysMapBlockFile f env pMap =
      ⟨false,
        { pMap with
          range_count := f.range_count
          ranges := .freed (arrFill (bmLoop f.extents f.blksize env.fixedOk f.range_count 0 rv
            (mul64 (bmBlocks f) f.blksize)).rs f.range_count) },
        [.reserveEv rv (mul64 (bmBlocks f) f.blksize), .openEv fd] ++
          (bmLoop f.extents f.blksize env.fixedOk f.range_count 0 rv
            (mul64 (bmBlocks f) f.blksize)).tr ++
          [.closeEv fd, .munmapEv rv (mul64 (bmBlocks f) f.blksize), .freeEv]⟩ := by
  simp only [sysMapBlockFile, hdev, hhdr, hcal, hrv, hfd]
  rw [if_neg (by simp), if_neg (by simp), if_neg hvalid, if_neg (by simp)]
  rw [if_neg]
  rintro ⟨h1, h2⟩
  rcases hfail with h | h
  · rw [h1] at h
    exact Bool.noConfusion h
  · exact h h2

theorem fd_ok_inv (e : FDEnv) (pMap : MemMapping) (m : MemMapping) (tr : List Ev)
    (h : sysMapFD e pMap = ⟨true, m, tr⟩) :
    (getFileStartAndLength e = none ∧ m = pMap ∧ tr = []) ∨
    (∃ start len p, getFileStartAndLength e = some (start, len) ∧ e.mmapAddr = some p ∧
      e.mallocOk = true ∧
      m = { pMap with
            addr := p
            length := len
            range_count := 1
            ranges := .live [⟨p, len⟩] } ∧
      tr = [.mmapFileEv p len]) := by
  simp only [sysMapFD] at h
  split at h
  · rename_i hget
    injection h with h1 h2 h3
    exact Or.inl ⟨hget, h2.symm, h3.symm⟩
  · rename_i start len hget
    split at h
    · exact absurd (congrArg MapRes.ok h) (by simp)
    · rename_i p hp
      split at h
      · rename_i hmal
        injection h with h1 h2 h3
        exact Or.inr ⟨start, len, p, hget, hp, hmal, h2.symm, h3.symm⟩
      · exact absurd (congrArg MapRes.ok h) (by simp)

/-! ### Arithmetic helpers -/

theorem usub_exact (a b : Nat) (hb : b ≤ a) (ha : a < 2 ^ 64) : usub a b = a - b := by
  simp only [usub]
  omega

theorem mul64_exact (a b : Nat) (hb : 0 < b) (h : a ≤ SIZE_MAX / b) : mul64 a b = a * b := by
  have h1 : a * b ≤ SIZE_MAX := (Nat.le_div_iff_mul_le hb).mp h
  have h2 : a * b < 2 ^ 64 := by
    simp only [SIZE_MAX] at h1
    omega
  simp only [mul64, Nat.mod_eq_of_lt h2]

theorem bmBlocks_eq_ceil (f : BlockMapf) (h0 : 0 < f.size) (hlt : f.size < 2 ^ 64)
    (hb : 0 < f.blksize) :
    bmBlocks f = (f.size + f.blksize - 1) / f.blksize := by
  simp only [bmBlocks]
  rw [usub_exact _ _ (by omega) hlt]
  have h1 : f.size + f.blksize - 1 = (f.size - 1) + f.blksize := by omega
  rw [h1, Nat.add_div_right _ hb]

theorem blocks_mul_of_dvd (n b : Nat) (hb : 0 < b) (hn : 0 < n) (hd : b ∣ n) :
    ((n - 1) / b + 1) * b = n := by
  obtain ⟨q, rfl⟩ := hd
  rcases q with _ | q
  · omega
  · have hms : b * (q + 1) = b * q + b := by ring
    have h1 : b * (q + 1) - 1 = b * q + (b - 1) := by omega
    rw [h1, Nat.mul_add_div hb, Nat.div_eq_of_lt (show b - 1 < b by omega)]
    ring

/-! ### Claim theorems -/

/-- **C1** (code bug).  The claim says mapping a zero-length regular file
fails with the empty-file condition and never returns a successful handle.
In the source, `getFileStartAndLength` does report the empty file as an
error (first conjunct), but `sysMapFD` propagates it with `return -1;`
inside a function whose return type is `bool`: C++ converts -1 to `true`,
so `sysMapFile` treats the empty file as success and returns 0 with the
zeroed, never-populated handle (second conjunct). -/
theorem c1_empty_file_reported_as_success :
    getFileStartAndLength ⟨some 0, some 0, true, some 4096, true⟩ = none ∧
    sysMapFile ['f']
      ⟨none, ⟨none, true, none, fun _ => true⟩, some 3,
        ⟨some 0, some 0, true, some 4096, true⟩⟩ =
      ⟨true, emptyMap, [.openEv 3, .closeEv 3]⟩ := by
  exact ⟨rfl, rfl⟩

/-- **C6** (confirmed).  A block-map descriptor whose header has
`logical_size = 0`, `block_size = 0`, `extent_count = 0`, or whose
`blocks_needed = ceil(logical_size / block_size)` fails the overflow guard
`blocks_needed > SIZE_MAX / block_size`, makes `map` fail before any extent
line is read and before any mapping attempt: the result is failure, the
handle is untouched, and the trace holds no reservation, mapping, open or
cleanup event — only the facade's fopen/fclose of the descriptor file. -/
theorem c6_header_validation_rejects_early (fn : List Char) (env : FileEnv)
    (f : BlockMapf)
    (hpath : isBlockPath fn = true) (hopen : env.fopenRes = some f)
    (hdev : f.devLineOk = true) (hhdr : f.headerOk = true)
    (hsz : f.size < 2 ^ 64)
    (hbad : f.size = 0 ∨ f.blksize = 0 ∨ f.range_count = 0 ∨
      (0 < f.size ∧ 0 < f.blksize ∧
        (f.size + f.blksize - 1) / f.blksize > SIZE_MAX / f.blksize)) :
    sysMapFile fn env = ⟨false, emptyMap, [.fopenEv, .fcloseEv]⟩ := by
  have hbad2 : f.size = 0 ∨ f.blksize = 0 ∨ bmBlocks f > SIZE_MAX / f.blksize ∨
      f.range_count = 0 := by
    rcases hbad with h | h | h | ⟨h1, h2, h3⟩
    · exact Or.inl h
    · exact Or.inr (Or.inl h)
    · exact Or.inr (Or.inr (Or.inr h))
    · refine Or.inr (Or.inr (Or.inl ?_))
      rwa [bmBlocks_eq_ceil f h1 hsz h2]
  have hbm : sysMapBlockFile f env.bmEnv emptyMap = ⟨false, emptyMap, []⟩ := by
    simp only [sysMapBlockFile, hdev, hhdr]
    rw [if_neg (by simp), if_neg (by simp), if_pos hbad2]
  simp only [sysMapFile, hpath, hopen, hbm, if_pos]
  rfl

/-- **C8** (confirmed).  Failing `map` calls that leave the handle in a
non-zeroed state: (1) direct strategy, malloc of the one-element range array
fails — `map` fails but the handle keeps `range_count = 1` with a NULL
`ranges` pointer; (2) block strategy, calloc fails — `range_count = 2` with
NULL `ranges`; (3) block strategy, the reservation fails after calloc —
`range_count = 2` with `ranges` pointing at the already-freed array.  In all
three cases a subsequent `sysReleaseMap` on the returned handle is not a
no-op: it dereferences NULL or uses a freed pointer (modelled as `fault`). -/
theorem c8_failed_map_leaves_stale_handle :
    (sysMapFile ['f'] ⟨none, ⟨none, true, none, fun _ => true⟩, some 3,
        ⟨some 0, some 7, true, some 4096, false⟩⟩ =
      ⟨false, ⟨4096, 7, 1, .null⟩,
        [.openEv 3, .mmapFileEv 4096 7, .munmapEv 4096 7, .closeEv 3]⟩ ∧
      sysReleaseMap ⟨4096, 7, 1, .null⟩ = .fault) ∧
    (sysMapFile ['@', 'd'] ⟨some ⟨true, true, 100, 10, 2, [(0, 5), (5, 10)]⟩,
        ⟨some 4096, false, some 5, fun _ => true⟩, none, ⟨none, none, true, none, true⟩⟩ =
      ⟨false, ⟨0, 0, 2, .null⟩, [.fopenEv, .fcloseEv]⟩ ∧
      sysReleaseMap ⟨0, 0, 2, .null⟩ = .fault) ∧
    (sysMapFile ['@', 'd'] ⟨some ⟨true, true, 100, 10, 2, [(0, 5), (5, 10)]⟩,
        ⟨none, true, some 5, fun _ => true⟩, none, ⟨none, none, true, none, true⟩⟩ =
      ⟨false, ⟨0, 0, 2, .freed [⟨0, 0⟩, ⟨0, 0⟩]⟩, [.fopenEv, .freeEv, .fcloseEv]⟩ ∧
      sysReleaseMap ⟨0, 0, 2, .freed [⟨0, 0⟩, ⟨0, 0⟩]⟩ = .fault) := by
  exact ⟨⟨rfl, rfl⟩, ⟨rfl, rfl⟩, ⟨rfl, rfl⟩⟩

/-- **C10** (confirmed).  Whenever the extent resolver reports a length
`N > 0` for a regular file and `map` succeeds on it, the returned handle has
`logical_length = N`, exactly one range descriptor of length `N`, and the
handle's base equals that range's address. -/
theorem c10_direct_success_shape (fn : List Char) (env : FileEnv) (start n : Nat)
    (m : MemMapping) (tr : List Ev)
    (hpath : isBlockPath fn = false)
    (hres : getFileStartAndLength env.fdEnv = some (start, n))
    (hmap : sysMapFile fn env = ⟨true, m, tr⟩) :
    m.length = n ∧ m.range_count = 1 ∧ m.ranges = .live [⟨m.addr, n⟩] := by
  rcases hfd : env.openFd with _ | fd
  · simp [sysMapFile, hpath, hfd] at hmap
  · rcases hmm : env.fdEnv.mmapAddr with _ | p
    · simp [sysMapFile, sysMapFD, hpath, hfd, hres, hmm] at hmap
    · by_cases hmal : env.fdEnv.mallocOk
      · simp [sysMapFile, sysMapFD, hpath, hfd, hres, hmm, hmal] at hmap
        obtain ⟨h2, h3⟩ := hmap
        rw [← h2]
        simp [emptyMap]
      · simp [sysMapFile, sysMapFD, hpath, hfd, hres, hmm, hmal] at hmap

/-- **C2**, counterexample.  A block-map descriptor with
`logical_size = 101`, `block_size = 10` and one extent `0 11` builds
successfully, but the handle's single range has length 110 (11 whole
blocks) while `logical_length` is 101: the sum of the range lengths does
not equal the handle's `logical_length`. -/
theorem c2_sum_ne_logical_length_cex :
    sysMapBlockFile ⟨true, true, 101, 10, 1, [(0, 11)]⟩
        ⟨some 4096, true, some 5, fun _ => true⟩ emptyMap =
      ⟨true, ⟨4096, 101, 1, .live [⟨4096, 110⟩]⟩,
        [.reserveEv 4096 110, .openEv 5, .fixedEv 0 4096 110, .closeEv 5]⟩ ∧
    sumLen [(⟨4096, 110⟩ : MappedRange)] = 110 ∧ (⟨4096, 101, 1,
      .live [⟨4096, 110⟩]⟩ : MemMapping).length = 101 := by
  exact ⟨rfl, rfl, rfl⟩

/-- **C2**, amended.  For every handle built by the block-map strategy, the
sum of the range lengths equals `logical_size` rounded up to a whole number
of blocks, `ceil(logical_size / block_size) * block_size`; it equals the
handle's `logical_length` exactly when `block_size` divides
`logical_size`. -/
theorem c2_sum_eq_size_rounded_up (f : BlockMapf) (env : BMEnv) (pMap m : MemMapping)
    (tr : List Ev) (hsz : f.size < 2 ^ 64)
    (h : sysMapBlockFile f env pMap = ⟨true, m, tr⟩) :
    ∃ rs, m.ranges = .live rs ∧
      sumLen rs = ((f.size - 1) / f.blksize + 1) * f.blksize ∧
      m.length = f.size ∧
      (f.blksize ∣ f.size → sumLen rs = f.size) := by
  obtain ⟨rv, fd, hdev, hhdr, hs0, hb0, hguard, hrc0, hcal, hrv, hfd, hok, hrem, hm, htr⟩ :=
    bm_ok_inv f env pMap m tr h
  have hlen := bmLoop_ok_length f.extents f.blksize env.fixedOk f.range_count 0 rv
    (mul64 (bmBlocks f) f.blksize) _ rfl hok
  have hsum := bmLoop_sum f.extents f.blksize env.fixedOk f.range_count 0 rv
    (mul64 (bmBlocks f) f.blksize) _ rfl
  have hmul : mul64 (bmBlocks f) f.blksize = bmBlocks f * f.blksize :=
    mul64_exact _ _ (Nat.pos_of_ne_zero hb0) hguard
  have husub : usub f.size 1 = f.size - 1 :=
    usub_exact _ _ (Nat.one_le_iff_ne_zero.mpr hs0) hsz
  rw [hrem, Nat.add_zero] at hsum
  have hsum2 : sumLen (bmLoop f.extents f.blksize env.fixedOk f.range_count 0 rv
      (mul64 (bmBlocks f) f.blksize)).rs = ((f.size - 1) / f.blksize + 1) * f.blksize := by
    rw [hsum, hmul]
    simp only [bmBlocks, husub]
  refine ⟨_, ?_, hsum2, ?_, ?_⟩
  · rw [hm]
    simp [arrFill_self _ _ hlen]
  · rw [hm]
  · intro hdvd
    rw [hsum2]
    exact blocks_mul_of_dvd f.size f.blksize (Nat.pos_of_ne_zero hb0)
      (Nat.pos_of_ne_zero hs0) hdvd

/-- **C2** witness for the amended theorem, at the counterexample's own
input: the single range of length 110 equals 101 rounded up to whole
blocks of 10 (11 * 10 = 110). -/
theorem c2_sum_eq_size_rounded_up_witness :
    ∃ rs, (⟨4096, 101, 1, .live [⟨4096, 110⟩]⟩ : MemMapping).ranges = .live rs ∧
      sumLen rs = ((101 - 1) / 10 + 1) * 10 ∧
      (⟨4096, 101, 1, .live [⟨4096, 110⟩]⟩ : MemMapping).length = 101 ∧
      ((10 : Nat) ∣ 101 → sumLen rs = 101) :=
  c2_sum_eq_size_rounded_up ⟨true, true, 101, 10, 1, [(0, 11)]⟩
    ⟨some 4096, true, some 5, fun _ => true⟩ emptyMap _ _ (by decide) rfl

/-- **C5** (confirmed).  Every handle built by the block-map strategy holds
its ranges in descriptor-file order at strictly consecutive addresses:
the range list is non-empty, has exactly `extent_count` entries, starts at
the handle's base address and is address-contiguous, and the `k`-th range's
length is `(block_end - block_start) * block_size` of the `k`-th extent
line. -/
theorem c5_ranges_consecutive_in_order (f : BlockMapf) (env : BMEnv) (pMap m : MemMapping)
    (tr : List Ev)
    (hwf : ∀ p ∈ f.extents, p.1 < 2 ^ 64 ∧ p.2 < 2 ^ 64)
    (h : sysMapBlockFile f env pMap = ⟨true, m, tr⟩) :
    ∃ rs, m.ranges = .live rs ∧ 0 < rs.length ∧ rs.length = f.range_count ∧
      consecutive m.addr rs ∧
      ∀ k, k < rs.length →
        ∃ s e a, f.extents[k]? = some (s, e) ∧ s < e ∧
          rs[k]? = some ⟨a, (e - s) * f.blksize⟩ := by
  obtain ⟨rv, fd, hdev, hhdr, hs0, hb0, hguard, hrc0, hcal, hrv, hfd, hok, hrem, hm, htr⟩ :=
    bm_ok_inv f env pMap m tr h
  have hlen := bmLoop_ok_length f.extents f.blksize env.fixedOk f.range_count 0 rv
    (mul64 (bmBlocks f) f.blksize) _ rfl hok
  have hchain := bmLoop_chain f.extents f.blksize env.fixedOk f.range_count 0 rv
    (mul64 (bmBlocks f) f.blksize) _ rfl
  have hget := bmLoop_get f.extents f.blksize env.fixedOk f.range_count 0 rv
    (mul64 (bmBlocks f) f.blksize) _ rfl
  refine ⟨(bmLoop f.extents f.blksize env.fixedOk f.range_count 0 rv
    (mul64 (bmBlocks f) f.blksize)).rs, ?_, ?_, ?_, ?_, ?_⟩
  · rw [hm]
    simp [arrFill_self _ _ hlen]
  · rw [hlen]
    exact Nat.pos_of_ne_zero hrc0
  · exact hlen
  · rw [hm]
    exact hchain
  · intro k hk
    obtain ⟨s, e, a, h1, h2, h3, h4⟩ := hget k hk
    rw [Nat.zero_add] at h1
    have hmem : (s, e) ∈ f.extents := List.getElem?_mem h1
    obtain ⟨hslt, helt⟩ := hwf (s, e) hmem
    have husub2 : usub e s = e - s := usub_exact e s (Nat.le_of_lt h2) helt
    have hlen2 : mul64 (usub e s) f.blksize = (e - s) * f.blksize := by
      rw [husub2]
      exact mul64_exact _ _ (Nat.pos_of_ne_zero hb0) (husub2 ▸ h3)
    refine ⟨s, e, a, h1, h2, ?_⟩
    rw [h4, hlen2]

/-- **C5** witness: header `100 10`, extents `0 5` then `5 10` produce two
ranges of length 50 at consecutive addresses 4096 and 4146, in
descriptor-file order. -/
theorem c5_ranges_consecutive_in_order_witness :
    ∃ rs, (⟨4096, 100, 2, .live [⟨4096, 50⟩, ⟨4146, 50⟩]⟩ : MemMapping).ranges = .live rs ∧
      0 < rs.length ∧ rs.length = 2 ∧
      consecutive (⟨4096, 100, 2, .live [⟨4096, 50⟩, ⟨4146, 50⟩]⟩ : MemMapping).addr rs ∧
      ∀ k, k < rs.length →
        ∃ s e a, ([(0, 5), (5, 10)] : List (Nat × Nat))[k]? = some (s, e) ∧ s < e ∧
          rs[k]? = some ⟨a, (e - s) * 10⟩ :=
  c5_ranges_consecutive_in_order ⟨true, true, 100, 10, 2, [(0, 5), (5, 10)]⟩
    ⟨some 4096, true, some 5, fun _ => true⟩ emptyMap _ _ (by decide) rfl

/-- **C3** (confirmed).  Whenever the extent loop finishes (by running out
of extents or after consuming all declared extents) with a nonzero number
of bytes still unplaced in the reservation, `map` fails and fully unwinds:
the device descriptor is closed, the whole original reservation span is
unmapped in one call, the range array is freed, and the descriptor file is
fclosed; moreover every fixed mapping that was issued lies inside the
reservation span that the single munmap covers, so no mapping or open
descriptor survives. -/
theorem c3_leftover_reservation_fails_and_unwinds (fn : List Char) (env : FileEnv)
    (f : BlockMapf) (rv fd : Nat)
    (hpath : isBlockPath fn = true) (hopen : env.fopenRes = some f)
    (hdev : f.devLineOk = true) (hhdr : f.headerOk = true)
    (hvalid : ¬(f.size = 0 ∨ f.blksize = 0 ∨ bmBlocks f > SIZE_MAX / f.blksize ∨
      f.range_count = 0))
    (hcal : env.bmEnv.callocOk = true) (hrv : env.bmEnv.reserveAddr = some rv)
    (hfd : env.bmEnv.devFd = some fd)
    (hrem : (bmLoop f.extents f.blksize env.bmEnv.fixedOk f.range_count 0 rv
      (mul64 (bmBlocks f) f.blksize)).rem ≠ 0) :
    sysMapFile fn env =
      ⟨false,
        { emptyMap with
          range_count := f.range_count
          ranges := .freed (arrFill (bmLoop f.extents f.blksize env.bmEnv.fixedOk
            f.range_count 0 rv (mul64 (bmBlocks f) f.blksize)).rs f.range_count) },
        .fopenEv :: ([.reserveEv rv (mul64 (bmBlocks f) f.blksize), .openEv fd] ++
          (bmLoop f.extents f.blksize env.bmEnv.fixedOk f.range_count 0 rv
            (mul64 (bmBlocks f) f.blksize)).tr ++
          [.closeEv fd, .munmapEv rv (mul64 (bmBlocks f) f.blksize), .freeEv]) ++
          [.fcloseEv]⟩ ∧
    ∀ j a l, Ev.fixedEv j a l ∈ (bmLoop f.extents f.blksize env.bmEnv.fixedOk f.range_count 0 rv
        (mul64 (bmBlocks f) f.blksize)).tr →
      rv ≤ a ∧ a + l ≤ rv + mul64 (bmBlocks f) f.blksize := by
  have hshape := bm_fail_shape f env.bmEnv emptyMap rv fd hdev hhdr hvalid hcal hrv hfd
    (Or.inr hrem)
  constructor
  · simp [sysMapFile, hpath, hopen, hshape]
  · exact fun j a l hmem => bmLoop_span f.extents f.blksize env.bmEnv.fixedOk
      f.range_count 0 rv (mul64 (bmBlocks f) f.blksize) _ rfl j a l hmem

/-- **C3** witness: a descriptor declaring `extent_count = 2` with header
`100 10` but supplying only the extent `0 5` leaves 50 bytes unplaced; the
map fails and the trace shows close, one whole-span munmap and free. -/
theorem c3_leftover_reservation_fails_and_unwinds_witness :
    sysMapFile ['@', 'd']
        ⟨some ⟨true, true, 100, 10, 2, [(0, 5)]⟩, ⟨some 4096, true, some 5, fun _ => true⟩,
          none, ⟨none, none, true, none, true⟩⟩ =
      ⟨false, ⟨0, 0, 2, .freed [⟨4096, 50⟩, ⟨0, 0⟩]⟩,
        [.fopenEv, .reserveEv 4096 100, .openEv 5, .fixedEv 0 4096 50, .closeEv 5,
          .munmapEv 4096 100, .freeEv, .fcloseEv]⟩ ∧
    ∀ j a l, Ev.fixedEv j a l ∈ [Ev.fixedEv 0 4096 50] →
      4096 ≤ a ∧ a + l ≤ 4096 + 100 :=
  (c3_leftover_reservation_fails_and_unwinds ['@', 'd']
    ⟨some ⟨true, true, 100, 10, 2, [(0, 5)]⟩, ⟨some 4096, true, some 5, fun _ => true⟩,
      none, ⟨none, none, true, none, true⟩⟩
    ⟨true, true, 100, 10, 2, [(0, 5)]⟩ 4096 5 rfl rfl rfl rfl (by decide) rfl rfl rfl
    (by decide))

/-- **C4** (confirmed).  When the extent loop stops with a failure and the
extent at the stopping index parses but fails its per-extent validation
(`block_end <= block_start`, overflow guard, or byte length exceeding the
remaining reservation), `map` fails, no MAP_FIXED call is ever issued for
that extent (every issued call has a strictly smaller index), the whole
reservation span is unmapped in one call, the device descriptor is closed,
the range array is freed, and every issued mapping lies inside the
unmapped span. -/
theorem c4_bad_extent_fails_before_mapping (fn : List Char) (env : FileEnv)
    (f : BlockMapf) (rv fd : Nat) (rs : List MappedRange) (rem : Nat) (ltr : List Ev)
    (s e : Nat)
    (hpath : isBlockPath fn = true) (hopen : env.fopenRes = some f)
    (hdev : f.devLineOk = true) (hhdr : f.headerOk = true)
    (hvalid : ¬(f.size = 0 ∨ f.blksize = 0 ∨ bmBlocks f > SIZE_MAX / f.blksize ∨
      f.range_count = 0))
    (hcal : env.bmEnv.callocOk = true) (hrv : env.bmEnv.reserveAddr = some rv)
    (hfd : env.bmEnv.devFd = some fd)
    (hloop : bmLoop f.extents f.blksize env.bmEnv.fixedOk f.range_count 0 rv
      (mul64 (bmBlocks f) f.blksize) = ⟨false, rs, rem, ltr⟩)
    (hext : f.extents[rs.length]? = some (s, e))
    (hbad : e ≤ s ∨ usub e s > SIZE_MAX / f.blksize ∨ mul64 (usub e s) f.blksize > rem) :
    sysMapFile fn env =
      ⟨false,
        { emptyMap with
          range_count := f.range_count
          ranges := .freed (arrFill rs f.range_count) },
        .fopenEv :: ([.reserveEv rv (mul64 (bmBlocks f) f.blksize), .openEv fd] ++ ltr ++
          [.closeEv fd, .munmapEv rv (mul64 (bmBlocks f) f.blksize), .freeEv]) ++
          [.fcloseEv]⟩ ∧
    (∀ j a l, Ev.fixedEv j a l ∈ ltr → j < rs.length) ∧
    (∀ j a l, Ev.fixedEv j a l ∈ ltr →
      rv ≤ a ∧ a + l ≤ rv + mul64 (bmBlocks f) f.blksize) := by
  have hshape := bm_fail_shape f env.bmEnv emptyMap rv fd hdev hhdr hvalid hcal hrv hfd
    (Or.inl (by rw [hloop]))
  rw [hloop] at hshape
  have hext0 : f.extents[0 + rs.length]? = some (s, e) := by
    rwa [Nat.zero_add]
  refine ⟨?_, ?_, ?_⟩
  · simp [sysMapFile, hpath, hopen, hshape]
  · intro j a l hmem
    have := bmLoop_fail_noFixedFrom f.extents f.blksize env.bmEnv.fixedOk
      f.range_count 0 rv (mul64 (bmBlocks f) f.blksize) ⟨false, rs, rem, ltr⟩ s e
      hloop hext0 hbad j a l hmem
    simpa using this
  · intro j a l hmem
    have := bmLoop_span f.extents f.blksize env.bmEnv.fixedOk f.range_count 0 rv
      (mul64 (bmBlocks f) f.blksize) ⟨false, rs, rem, ltr⟩ hloop j a l hmem
    exact this

/-- **C4** witness: the extent `5 5` (with `block_end <= block_start`)
fails validation at index 0; no MAP_FIXED call is issued at all, and the
trace shows only close, the single whole-span munmap, and free. -/
theorem c4_bad_extent_fails_before_mapping_witness :
    sysMapFile ['@', 'd']
        ⟨some ⟨true, true, 100, 10, 2, [(5, 5), (0, 1)]⟩,
          ⟨some 4096, true, some 5, fun _ => true⟩,
          none, ⟨none, none, true, none, true⟩⟩ =
      ⟨false, ⟨0, 0, 2, .freed [⟨0, 0⟩, ⟨0, 0⟩]⟩,
        [.fopenEv, .reserveEv 4096 100, .openEv 5, .closeEv 5,
          .munmapEv 4096 100, .freeEv, .fcloseEv]⟩ ∧
    (∀ j a l, Ev.fixedEv j a l ∈ ([] : List Ev) → j < 0) ∧
    (∀ j a l, Ev.fixedEv j a l ∈ ([] : List Ev) → 4096 ≤ a ∧ a + l ≤ 4096 + 100) :=
  c4_bad_extent_fails_before_mapping ['@', 'd']
    ⟨some ⟨true, true, 100, 10, 2, [(5, 5), (0, 1)]⟩,
      ⟨some 4096, true, some 5, fun _ => true⟩, none, ⟨none, none, true, none, true⟩⟩
    ⟨true, true, 100, 10, 2, [(5, 5), (0, 1)]⟩ 4096 5 [] 100 [] 5 5
    rfl rfl rfl rfl (by decide) rfl rfl rfl rfl rfl (Or.inl (by decide))

/-- `sysReleaseMap` on a handle holding a live range array of exactly
`range_count` entries: one munmap call per range in order, then the free of
the array, ending in the emptied handle. -/
theorem sysReleaseMap_live (pMap : MemMapping) (rs : List MappedRange)
    (h : pMap.ranges = .live rs) (hc : pMap.range_count = rs.length) :
    sysReleaseMap pMap = .ok ⟨pMap.addr, pMap.length, 0, .null⟩
      (rs.map (fun r => Ev.munmapEv r.addr r.length) ++ [.freeEv]) := by
  simp only [sysReleaseMap, h, hc]
  rw [if_pos (Nat.le_refl _), List.take_length]

/-- **C7** (confirmed).  For every handle returned by a successful `map`,
`sysReleaseMap` returns normally (no fault), unmaps each held range
individually — when the handle holds a live range array the emitted calls
are exactly one munmap per range, in order, followed by the free of the
array — and leaves the handle with `range_count = 0` and a NULL `ranges`
pointer; a second release on that post-release handle performs no munmap
and frees no live memory (`free(NULL)` is a no-op) and does not fault. -/
theorem c7_release_idempotent (fn : List Char) (env : FileEnv) (m : MemMapping) (tr : List Ev)
    (hmap : sysMapFile fn env = ⟨true, m, tr⟩) :
    (∃ out1, sysReleaseMap m = .ok ⟨m.addr, m.length, 0, .null⟩ out1 ∧
      ∀ rs, m.ranges = .live rs →
        out1 = rs.map (fun r => Ev.munmapEv r.addr r.length) ++ [.freeEv]) ∧
    sysReleaseMap ⟨m.addr, m.length, 0, .null⟩ = .ok ⟨m.addr, m.length, 0, .null⟩ [] := by
  refine ⟨?_, rfl⟩
  cases hbp : isBlockPath fn with
  | true =>
    rcases hopen : env.fopenRes with _ | f
    · simp [sysMapFile, hbp, hopen] at hmap
    · simp [sysMapFile, hbp, hopen] at hmap
      obtain ⟨h1, h2, h3⟩ := hmap
      have hbm : sysMapBlockFile f env.bmEnv emptyMap =
          ⟨true, m, (sysMapBlockFile f env.bmEnv emptyMap).tr⟩ := by
        rw [← h1, ← h2]
      obtain ⟨rv, fd, hdev, hhdr, hs0, hb0, hguard, hrc0, hcal, hrv, hfd, hok, hrem, hm, htr⟩ :=
        bm_ok_inv f env.bmEnv emptyMap m _ hbm
      have hlen := bmLoop_ok_length f.extents f.blksize env.bmEnv.fixedOk f.range_count 0 rv
        (mul64 (bmBlocks f) f.blksize) _ rfl hok
      subst hm
      refine ⟨(bmLoop f.extents f.blksize env.bmEnv.fixedOk f.range_count 0 rv
          (mul64 (bmBlocks f) f.blksize)).rs.map (fun r => Ev.munmapEv r.addr r.length) ++
          [Ev.freeEv], ?_, ?_⟩
      · exact sysReleaseMap_live _ _ (by simp [arrFill_self _ _ hlen]) (by simp [hlen])
      · intro rs hrs
        simp only [MemMapping.ranges, arrFill_self _ _ hlen] at hrs
        have heq2 : (bmLoop f.extents f.blksize env.bmEnv.fixedOk f.range_count 0 rv
            (mul64 (bmBlocks f) f.blksize)).rs = rs := by
          injection hrs
        rw [← heq2]
  | false =>
    rcases hfd : env.openFd with _ | fd
    · simp [sysMapFile, hbp, hfd] at hmap
    · simp [sysMapFile, hbp, hfd] at hmap
      obtain ⟨h1, h2, h3⟩ := hmap
      have hfdres : sysMapFD env.fdEnv emptyMap =
          ⟨true, m, (sysMapFD env.fdEnv emptyMap).tr⟩ := by
        rw [← h1, ← h2]
      rcases fd_ok_inv env.fdEnv emptyMap m _ hfdres with ⟨hget, hm, htr⟩ |
        ⟨start, len, p, hget, hp, hmal, hm, htr⟩
      · subst hm
        exact ⟨[], rfl, fun rs hrs => by simp [emptyMap] at hrs⟩
      · subst hm
        refine ⟨[Ev.munmapEv p len, Ev.freeEv], ?_, ?_⟩
        · exact sysReleaseMap_live _ [⟨p, len⟩] rfl rfl
        · intro rs hrs
          simp only [MemMapping.ranges] at hrs
          have heq3 : ([⟨p, len⟩] : List MappedRange) = rs := by
            injection hrs
          rw [← heq3]
          rfl

/-- **C7** witness: the handle built from header `100 10` with extents
`0 5`, `5 10` releases to the empty handle with one munmap per range plus
the free, and a second release of the emptied handle does nothing. -/
theorem c7_release_idempotent_witness :
    (∃ out1, sysReleaseMap ⟨4096, 100, 2, .live [⟨4096, 50⟩, ⟨4146, 50⟩]⟩ =
        .ok ⟨4096, 100, 0, .null⟩ out1 ∧
      ∀ rs, (⟨4096, 100, 2, .live [⟨4096, 50⟩, ⟨4146, 50⟩]⟩ : MemMapping).ranges = .live rs →
        out1 = rs.map (fun r => Ev.munmapEv r.addr r.length) ++ [.freeEv]) ∧
    sysReleaseMap ⟨4096, 100, 0, .null⟩ = .ok ⟨4096, 100, 0, .null⟩ [] :=
  c7_release_idempotent ['@', 'd']
    ⟨some ⟨true, true, 100, 10, 2, [(0, 5), (5, 10)]⟩, ⟨some 4096, true, some 5, fun _ => true⟩,
      none, ⟨none, none, true, none, true⟩⟩ _ _ rfl

/-! ### Descriptor-balance lemmas for C9 -/

theorem countEv_append (p : Ev → Bool) (a b : List Ev) :
    countEv p (a ++ b) = countEv p a + countEv p b := by
  simp [countEv, List.filter_append]

theorem countEv_cons (p : Ev → Bool) (a : Ev) (t : List Ev) :
    countEv p (a :: t) = (if p a then 1 else 0) + countEv p t := by
  simp only [countEv, List.filter_cons]
  split
  · simp [Nat.add_comm]
  · simp

theorem bmLoop_countEv_zero (p : Ev → Bool) (hfix : ∀ i a l, p (Ev.fixedEv i a l) = false)
    (exts : List (Nat × Nat)) (blksize : Nat) (fok : Nat → Bool) :
    ∀ (count i next remaining : Nat) (L : LoopRes),
      bmLoop exts blksize fok count i next remaining = L → countEv p L.tr = 0 := by
  intro count
  induction count with
  | zero =>
    intro i next remaining L hEq
    subst hEq
    rfl
  | succ n ih =>
    intro i next remaining L hEq
    simp only [bmLoop] at hEq
    split at hEq
    · subst hEq
      rfl
    · rename_i s e heq
      split at hEq
      · subst hEq
        rfl
      · split at hEq
        · subst hEq
          have hrec := ih (i + 1) (next + mul64 (usub e s) blksize)
            (remaining - mul64 (usub e s) blksize)
            (bmLoop exts blksize fok n (i + 1) (next + mul64 (usub e s) blksize)
              (remaining - mul64 (usub e s) blksize)) rfl
          simp only [countEv_cons, hfix, if_false]
          simpa using hrec
        · subst hEq
          simp only [countEv_cons, hfix, if_false]
          rfl

theorem fd_balanced (e : FDEnv) (pMap : MemMapping) : balanced (sysMapFD e pMap).tr := by
  unfold sysMapFD
  split
  · exact ⟨rfl, fun fd => rfl⟩
  · split
    · exact ⟨rfl, fun fd => rfl⟩
    · split
      · exact ⟨rfl, fun fd => rfl⟩
      · exact ⟨rfl, fun fd => rfl⟩

theorem bm_balanced (f : BlockMapf) (env : BMEnv) (pMap : MemMapping) :
    balanced (sysMapBlockFile f env pMap).tr := by
  unfold sysMapBlockFile
  split
  · exact ⟨rfl, fun fd => rfl⟩
  · split
    · exact ⟨rfl, fun fd => rfl⟩
    · split
      · exact ⟨rfl, fun fd => rfl⟩
      · split
        · exact ⟨rfl, fun fd => rfl⟩
        · split
          · exact ⟨rfl, fun fd => rfl⟩
          · rename_i rv hrv
            split
            · exact ⟨rfl, fun fd => rfl⟩
            · rename_i fd0 hfd0
              dsimp only
              have hz : ∀ (p : Ev → Bool), (∀ i a l, p (Ev.fixedEv i a l) = false) →
                  countEv p (bmLoop f.extents f.blksize env.fixedOk f.range_count 0 rv
                    (mul64 (bmBlocks f) f.blksize)).tr = 0 := by
                intro p hfix
                exact bmLoop_countEv_zero p hfix f.extents f.blksize env.fixedOk
                  f.range_count 0 rv (mul64 (bmBlocks f) f.blksize) _ rfl
              have hz2 : ∀ (p : Ev → Bool), (∀ i a l, p (Ev.fixedEv i a l) = false) →
                  (List.filter p (bmLoop f.extents f.blksize env.fixedOk f.range_count 0 rv
                    (mul64 (bmBlocks f) f.blksize)).tr).length = 0 := by
                intro p hfix
                simpa [countEv] using hz p hfix
              split
              · constructor
                · simp [countEv, List.filter_append, List.filter_cons, isFopenEv, isFcloseEv,
                    hz2 isFopenEv (fun _ _ _ => rfl), hz2 isFcloseEv (fun _ _ _ => rfl)]
                · intro fd1
                  by_cases hf : fd0 = fd1 <;>
                    simp [countEv, List.filter_append, List.filter_cons, isOpenEv, isCloseEv, hf,
                      hz2 (isOpenEv fd1) (fun _ _ _ => rfl), hz2 (isCloseEv fd1) (fun _ _ _ => rfl)]
              · constructor
                · simp [countEv, List.filter_append, List.filter_cons, isFopenEv, isFcloseEv,
                    hz2 isFopenEv (fun _ _ _ => rfl), hz2 isFcloseEv (fun _ _ _ => rfl)]
                · intro fd1
                  by_cases hf : fd0 = fd1 <;>
                    simp [countEv, List.filter_append, List.filter_cons, isOpenEv, isCloseEv, hf,
                      hz2 (isOpenEv fd1) (fun _ _ _ => rfl), hz2 (isCloseEv fd1) (fun _ _ _ => rfl)]

/-- **C9** (confirmed).  `sysMapFile` dispatches on the `'@'` sentinel: a
path starting with the sentinel is mapped by opening and parsing the rest
of the path as a block-map descriptor (block-map strategy), any other path
is opened read-only and mapped directly; and on every exit path, success or
failure, every descriptor the call itself opened is closed (fopen/fclose
and open/close events balance for every descriptor). -/
theorem c9_dispatch_and_descriptor_balance :
    (∀ fn env, isBlockPath fn = true →
      sysMapFile fn env =
        match env.fopenRes with
        | none => ⟨false, emptyMap, []⟩
        | some f =>
          ⟨(sysMapBlockFile f env.bmEnv emptyMap).ok,
            (sysMapBlockFile f env.bmEnv emptyMap).map,
            .fopenEv :: (sysMapBlockFile f env.bmEnv emptyMap).tr ++ [.fcloseEv]⟩) ∧
    (∀ fn env, isBlockPath fn = false →
      sysMapFile fn env =
        match env.openFd with
        | none => ⟨false, emptyMap, []⟩
        | some fd =>
          ⟨(sysMapFD env.fdEnv emptyMap).ok, (sysMapFD env.fdEnv emptyMap).map,
            .openEv fd :: (sysMapFD env.fdEnv emptyMap).tr ++ [.closeEv fd]⟩) ∧
    (∀ fn env, balanced (sysMapFile fn env).tr) := by
  refine ⟨?_, ?_, ?_⟩
  · intro fn env h
    simp [sysMapFile, h]
  · intro fn env h
    simp [sysMapFile, h]
  · intro fn env
    unfold sysMapFile
    dsimp only
    split
    · split
      · exact ⟨rfl, fun fd => rfl⟩
      · rename_i f hf
        obtain ⟨hb1, hb2⟩ := bm_balanced f env.bmEnv emptyMap
        have hb1l : (List.filter isFopenEv (sysMapBlockFile f env.bmEnv emptyMap).tr).length =
            (List.filter isFcloseEv (sysMapBlockFile f env.bmEnv emptyMap).tr).length := hb1
        constructor
        · simp [countEv, List.filter_cons, List.filter_append, isFopenEv, isFcloseEv, hb1l]
        · intro fd1
          have hb2l : (List.filter (isOpenEv fd1)
              (sysMapBlockFile f env.bmEnv emptyMap).tr).length =
              (List.filter (isCloseEv fd1) (sysMapBlockFile f env.bmEnv emptyMap).tr).length :=
            hb2 fd1
          simp [countEv, List.filter_cons, List.filter_append, isOpenEv, isCloseEv, hb2l]
    · split
      · exact ⟨rfl, fun fd => rfl⟩
      · rename_i fd0 hfd0
        obtain ⟨hf1, hf2⟩ := fd_balanced env.fdEnv emptyMap
        have hf1l : (List.filter isFopenEv (sysMapFD env.fdEnv emptyMap).tr).length =
            (List.filter isFcloseEv (sysMapFD env.fdEnv emptyMap).tr).length := hf1
        constructor
        · simp [countEv, List.filter_cons, List.filter_append, isFopenEv, isFcloseEv, hf1l]
        · intro fd1
          have hf2l : (List.filter (isOpenEv fd1) (sysMapFD env.fdEnv emptyMap).tr).length =
              (List.filter (isCloseEv fd1) (sysMapFD env.fdEnv emptyMap).tr).length := hf2 fd1
          by_cases hfe : fd0 = fd1 <;>
            simp [countEv, List.filter_cons, List.filter_append, isOpenEv, isCloseEv, hfe, hf2l]

/-- **C6** witness: a descriptor with `block_size = 0` (header `100 0`,
two declared extents) is rejected with no mapping attempt and an untouched
handle. -/
theorem c6_header_validation_rejects_early_witness :
    sysMapFile ['@', 'd']
        ⟨some ⟨true, true, 100, 0, 2, [(0, 5)]⟩, ⟨some 4096, true, some 5, fun _ => true⟩,
          none, ⟨none, none, true, none, true⟩⟩ =
      ⟨false, emptyMap, [.fopenEv, .fcloseEv]⟩ :=
  c6_header_validation_rejects_early ['@', 'd']
    ⟨some ⟨true, true, 100, 0, 2, [(0, 5)]⟩, ⟨some 4096, true, some 5, fun _ => true⟩,
      none, ⟨none, none, true, none, true⟩⟩
    ⟨true, true, 100, 0, 2, [(0, 5)]⟩ rfl rfl rfl rfl (by decide)
    (Or.inr (Or.inl rfl))

/-- **C10** witness: a regular file whose extent resolver reports length 7
maps to a handle with `logical_length = 7` and one range of length 7 at the
handle's base. -/
theorem c10_direct_success_shape_witness :
    (⟨4096, 7, 1, .live [⟨4096, 7⟩]⟩ : MemMapping).length = 7 ∧
    (⟨4096, 7, 1, .live [⟨4096, 7⟩]⟩ : MemMapping).range_count = 1 ∧
    (⟨4096, 7, 1, .live [⟨4096, 7⟩]⟩ : MemMapping).ranges =
      .live [⟨(⟨4096, 7, 1, .live [⟨4096, 7⟩]⟩ : MemMapping).addr, 7⟩] :=
  c10_direct_success_shape ['f']
    ⟨none, ⟨none, true, none, fun _ => true⟩, some 3, ⟨some 0, some 7, true, some 4096, true⟩⟩
    0 7 ⟨4096, 7, 1, .live [⟨4096, 7⟩]⟩ [.openEv 3, .mmapFileEv 4096 7, .closeEv 3]
    rfl (by decide) rfl

/-- **C9** witness: the dispatch equations and the descriptor balance at
concrete inputs — a sentinel path mapped via the block-map strategy and a
plain path mapped via the direct strategy. -/
theorem c9_dispatch_and_descriptor_balance_witness :
    sysMapFile ['@', 'd']
        ⟨some ⟨true, true, 100, 10, 2, [(0, 5), (5, 10)]⟩,
          ⟨some 4096, true, some 5, fun _ => true⟩,
          none, ⟨none, none, true, none, true⟩⟩ =
      ⟨(sysMapBlockFile ⟨true, true, 100, 10, 2, [(0, 5), (5, 10)]⟩
          ⟨some 4096, true, some 5, fun _ => true⟩ emptyMap).ok,
        (sysMapBlockFile ⟨true, true, 100, 10, 2, [(0, 5), (5, 10)]⟩
          ⟨some 4096, true, some 5, fun _ => true⟩ emptyMap).map,
        .fopenEv :: (sysMapBlockFile ⟨true, true, 100, 10, 2, [(0, 5), (5, 10)]⟩
          ⟨some 4096, true, some 5, fun _ => true⟩ emptyMap).tr ++ [.fcloseEv]⟩ ∧
    sysMapFile ['f'] ⟨none, ⟨none, true, none, fun _ => true⟩, some 3,
        ⟨some 0, some 7, true, some 4096, true⟩⟩ =
      ⟨(sysMapFD ⟨some 0, some 7, true, some 4096, true⟩ emptyMap).ok,
        (sysMapFD ⟨some 0, some 7, true, some 4096, true⟩ emptyMap).map,
        .openEv 3 :: (sysMapFD ⟨some 0, some 7, true, some 4096, true⟩ emptyMap).tr
          ++ [.closeEv 3]⟩ ∧
    balanced (sysMapFile ['@', 'd'] ⟨some ⟨true, true, 100, 10, 2, [(0, 5), (5, 10)]⟩,
      ⟨some 4096, true, some 5, fun _ => true⟩, none, ⟨none, none, true, none, true⟩⟩).tr := by
  have h := c9_dispatch_and_descriptor_balance
  exact ⟨h.1 _ _ rfl, h.2.1 _ _ rfl, h.2.2 _ _⟩
